import Mathlib

/-!
Shallow embedding of the `flakers` crate (src/lib.rs, src/main.rs): a nom-based
parser for the textual "Flake lock file updates:" notification, and the Markdown
rendering of its entries.  Strings are modelled as `List Char`; every nom parser
becomes a function `List Char → Option (List Char × α)` returning the remaining
input and the parsed value (`none` models a nom parse error).  Rust operations
that can panic (`commit[..8]`, `Option::unwrap`) are modelled as `Option`.
-/

namespace Flakers

abbrev Str := List Char

/-- Embedding of nom `tag(t)` / `char(c)`: consume the literal `t` from the
front of the input, returning the remainder; fail otherwise. -/
def tagP : Str → Str → Option Str
  | [], input => some input
  | _ :: _, [] => none
  | c :: t, d :: input => if c = d then tagP t input else none

/-- Embedding of nom `take_until(pat)`: consume up to (not including) the first
occurrence of the sequence `pat`, returning `(remaining, taken)`; fail when
`pat` does not occur. -/
def takeUntilSeq (pat : Str) : Str → Option (Str × Str)
  | [] => if pat.isPrefixOf ([] : Str) then some ([], []) else none
  | c :: rest =>
    if pat.isPrefixOf (c :: rest) then some (c :: rest, [])
    else
      match takeUntilSeq pat rest with
      | none => none
      | some (rem, taken) => some (rem, c :: taken)

/-- Embedding of nom `take_while1(p)`: consume the longest nonempty prefix of
characters satisfying `p`; fail when that prefix is empty. -/
def takeWhile1P (p : Char → Bool) (input : Str) : Option (Str × Str) :=
  match input.takeWhile p with
  | [] => none
  | taken => some (input.dropWhile p, taken)

/-- nom's `space0`/`space1` accept exactly `' '` and `'\t'`. -/
def isSpaceTab (c : Char) : Bool := c = ' ' || c = '\t'

/-- Embedding of nom `space0`: always succeeds, drops leading spaces/tabs. -/
def space0 (input : Str) : Str := input.dropWhile isSpaceTab

/-- Embedding of nom `space1`: requires at least one space/tab. -/
def space1P (input : Str) : Option Str :=
  match input with
  | [] => none
  | c :: rest => if isSpaceTab c then some (rest.dropWhile isSpaceTab) else none

/-- Embedding of nom `line_ending`: consumes `"\n"` or `"\r\n"`. -/
def lineEnding (input : Str) : Option Str :=
  match input with
  | [] => none
  | c :: rest =>
    if c = '\n' then some rest
    else if c = '\r' then
      match rest with
      | [] => none
      | d :: rest2 => if d = '\n' then some rest2 else none
    else none

/-- Embedding of nom (complete) `not_line_ending`: consumes characters up to a
`'\r'` or `'\n'` (possibly none); fails on a `'\r'` not followed by `'\n'`. -/
def notLineEnding (input : Str) : Option (Str × Str) :=
  let taken := input.takeWhile fun c => !(c = '\r' || c = '\n')
  let rest := input.dropWhile fun c => !(c = '\r' || c = '\n')
  match rest with
  | [] => some ([], taken)
  | c :: rest2 =>
    if c = '\n' then some (c :: rest2, taken)
    else
      match rest2 with
      | [] => none
      | d :: _ => if d = '\n' then some (c :: rest2, taken) else none

/-- `enum FlakeRefType { Github, Gitlab }` -/
inductive FlakeRefType where
  | Github
  | Gitlab
deriving DecidableEq

/-- `impl TryFrom<&str> for FlakeRefType`: exact match of the provider tag. -/
def FlakeRefType.tryFrom (s : Str) : Option FlakeRefType :=
  if s = "github".toList then some FlakeRefType.Github
  else if s = "gitlab".toList then some FlakeRefType.Gitlab
  else none

/-- `struct FlakeRef { ref_type, repo, commit }` -/
structure FlakeRef where
  ref_type : FlakeRefType
  repo : Str
  commit : Str
deriving DecidableEq

/-- Embedding of `repo_and_sha.rsplitn(2, '/')`: split at the last `'/'`,
returning `(before, after)`; `none` when there is no `'/'` (in the source that
case would be an out-of-bounds `parts[1]` panic, unreachable under the
two-slash guard). -/
def splitLastSlash : Str → Option (Str × Str)
  | [] => none
  | c :: rest =>
    match splitLastSlash rest with
    | some (before, after) => some (c :: before, after)
    | none => if c = '/' then some ([], rest) else none

/-- Embedding of `opt(char('?') then not_line_ending)` in `FlakeRef::parse_from`:
consume a `'?'`-prefixed query up to the line ending when present, otherwise
leave the input unchanged. -/
def optQuery (input : Str) : Str :=
  match tagP ['?'] input with
  | none => input
  | some i =>
    match notLineEnding i with
    | none => input
    | some (rem, _) => rem

/-- The body predicate of `FlakeRef::parse_from`: `|c| c != '?' && c != '\n'`. -/
def notQN (c : Char) : Bool := !(c = '?' || c = '\n')

/-- `FlakeRef::parse_from`: provider tag up to `':'`, a body of non-`'?'`,
non-newline characters containing exactly two `'/'`, an optional discarded
query suffix, then split the body at its last `'/'`. -/
def FlakeRef.parse_from (input : Str) : Option (Str × FlakeRef) :=
  match takeUntilSeq [':'] input with
  | none => none
  | some (input, ref_type_str) =>
    match tagP [':'] input with
    | none => none
    | some input =>
      match FlakeRefType.tryFrom ref_type_str with
      | none => none
      | some ref_type =>
        match takeWhile1P notQN input with
        | none => none
        | some (input, repo_and_sha) =>
          if repo_and_sha.count '/' = 2 then
            let input := optQuery input
            match splitLastSlash repo_and_sha with
            | none => none
            | some (repo, commit) => some (input, ⟨ref_type, repo, commit⟩)
          else none

/-- `FlakeRef::repo_url`. -/
def FlakeRef.repo_url (f : FlakeRef) : Str :=
  match f.ref_type with
  | FlakeRefType.Github => "https://github.com/".toList ++ f.repo
  | FlakeRefType.Gitlab => "https://gitlab.com/".toList ++ f.repo

/-- Embedding of the Rust slice `s[..n]`: the first `n` characters, or `none`
(a panic in the source) when `s` is shorter than `n`. -/
def rustSliceTo (s : Str) (n : Nat) : Option Str :=
  if n ≤ s.length then some (s.take n) else none

/-- `FlakeRef::sha`: `self.commit[..8]`. -/
def FlakeRef.sha (f : FlakeRef) : Option Str :=
  rustSliceTo f.commit 8

/-- `struct DatedFlakeRef { flake_ref, date }` -/
structure DatedFlakeRef where
  flake_ref : FlakeRef
  date : Str
deriving DecidableEq

/-- `DatedFlakeRef::parse_from`: optional leading whitespace, a single-quoted
locator, whitespace, a parenthesized date, a line ending; the quoted locator is
then parsed by `FlakeRef.parse_from` (its own remainder discarded). -/
def DatedFlakeRef.parse_from (input : Str) : Option (Str × DatedFlakeRef) :=
  match tagP ['\''] (space0 input) with
  | none => none
  | some input =>
    match takeUntilSeq ['\''] input with
    | none => none
    | some (input, url) =>
      match tagP ['\''] input with
      | none => none
      | some input =>
        match space1P input with
        | none => none
        | some input =>
          match tagP ['('] input with
          | none => none
          | some input =>
            match takeUntilSeq [')'] input with
            | none => none
            | some (input, date) =>
              match tagP [')'] input with
              | none => none
              | some input =>
                match lineEnding input with
                | none => none
                | some input =>
                  match FlakeRef.parse_from url with
                  | none => none
                  | some (_, flake_ref) => some (input, ⟨flake_ref, date⟩)

/-- `struct UpdateInfo { from, to }` (`from` is a Lean keyword, hence
`fromRef`/`toRef`). -/
structure UpdateInfo where
  fromRef : DatedFlakeRef
  toRef : DatedFlakeRef
deriving DecidableEq

/-- `UpdateInfo::parse_from`: a "from" dated ref, whitespace, the arrow `→`,
a "to" dated ref. -/
def UpdateInfo.parse_from (input : Str) : Option (Str × UpdateInfo) :=
  match DatedFlakeRef.parse_from input with
  | none => none
  | some (input, fromRef) =>
    match tagP ['→'] (space0 input) with
    | none => none
    | some input =>
      match DatedFlakeRef.parse_from input with
      | none => none
      | some (input, toRef) => some (input, ⟨fromRef, toRef⟩)

/-- `UpdateInfo::url`: `none` when repo or provider differ, otherwise the
compare URL built from the full commits. -/
def UpdateInfo.url (u : UpdateInfo) : Option Str :=
  if u.fromRef.flake_ref.repo ≠ u.toRef.flake_ref.repo ∨
     u.fromRef.flake_ref.ref_type ≠ u.toRef.flake_ref.ref_type then none
  else
    some (u.fromRef.flake_ref.repo_url ++ "/compare/".toList ++
          u.fromRef.flake_ref.commit ++ "...".toList ++ u.toRef.flake_ref.commit)

/-- `enum AddInfo { Follows, New }` -/
inductive AddInfo where
  | Follows (repo : Str)
  | New (ref : DatedFlakeRef)
deriving DecidableEq

/-- The first alternative of `AddInfo::parse_from`: whitespace, the literal
`follows `, a single-quoted path, a line ending. -/
def AddInfo.followsAlt (input : Str) : Option (Str × AddInfo) :=
  match tagP "follows ".toList (space0 input) with
  | none => none
  | some input =>
    match tagP ['\''] input with
    | none => none
    | some input =>
      match takeUntilSeq ['\''] input with
      | none => none
      | some (input, repo) =>
        match tagP ['\''] input with
        | none => none
        | some input =>
          match lineEnding input with
          | none => none
          | some input => some (input, AddInfo.Follows repo)

/-- `AddInfo::parse_from`: `alt` of the follows alternative and a dated flake
ref (the `New` variant). -/
def AddInfo.parse_from (input : Str) : Option (Str × AddInfo) :=
  match AddInfo.followsAlt input with
  | some r => some r
  | none =>
    match DatedFlakeRef.parse_from input with
    | none => none
    | some (input, flake_ref) => some (input, AddInfo.New flake_ref)

/-- `enum Entry { Updated(&str, UpdateInfo), Added(AddInfo) }` -/
inductive Entry where
  | Updated (name : Str) (info : UpdateInfo)
  | Added (info : AddInfo)
deriving DecidableEq

/-- `Entry::summary`: the rendered Markdown line; `none` models the panics in
the source (`sha` on a short commit, `info.url().unwrap()` on an absent diff
URL). -/
def Entry.summary : Entry → Option Str
  | Entry.Updated name info =>
    match info.fromRef.flake_ref.sha with
    | none => none
    | some fs =>
      match info.toRef.flake_ref.sha with
      | none => none
      | some ts =>
        match info.url with
        | none => none
        | some u =>
          some (" - Updated input [`".toList ++ name ++ "`](".toList ++
                info.fromRef.flake_ref.repo_url ++ "): [`".toList ++ fs ++
                "` ➡️ `".toList ++ ts ++ "`](".toList ++ u ++
                ") <sub>(".toList ++ info.fromRef.date ++ " to ".toList ++
                info.toRef.date ++ ")<sub/>".toList)
  | Entry.Added (AddInfo.Follows repo) =>
    some (" - Added input (follows `".toList ++ repo ++ "`)".toList)
  | Entry.Added (AddInfo.New dated_ref) =>
    match dated_ref.flake_ref.sha with
    | none => none
    | some s =>
      some (" - Added input [`".toList ++ s ++ "`](".toList ++
            dated_ref.flake_ref.repo_url ++ ") (".toList ++
            dated_ref.date ++ ")".toList)

/-- `parse_header`: the literal title line followed by two line endings. -/
def parse_header (input : Str) : Option (Str × Unit) :=
  match tagP "Flake lock file updates:".toList input with
  | none => none
  | some input =>
    match lineEnding input with
    | none => none
    | some input =>
      match lineEnding input with
      | none => none
      | some input => some (input, ())

/-- `parse_updated`: the Updated block header line, then an `UpdateInfo`. -/
def parse_updated (input : Str) : Option (Str × Entry) :=
  match tagP "• Updated input '".toList input with
  | none => none
  | some input =>
    match takeUntilSeq "':".toList input with
    | none => none
    | some (input, package) =>
      match tagP "':".toList input with
      | none => none
      | some input =>
        match lineEnding input with
        | none => none
        | some input =>
          match UpdateInfo.parse_from input with
          | none => none
          | some (input, info) => some (input, Entry.Updated package info)

/-- `parse_added`: the Added block header line (the name is parsed and
discarded), then an `AddInfo`. -/
def parse_added (input : Str) : Option (Str × Entry) :=
  match tagP "• Added input '".toList input with
  | none => none
  | some input =>
    match takeUntilSeq "':".toList input with
    | none => none
    | some (input, _) =>
      match tagP "':".toList input with
      | none => none
      | some input =>
        match lineEnding input with
        | none => none
        | some input =>
          match AddInfo.parse_from input with
          | none => none
          | some (input, info) => some (input, Entry.Added info)

/-- `parse_entry`: `alt((parse_updated, parse_added))`. -/
def parse_entry (input : Str) : Option (Str × Entry) :=
  match parse_updated input with
  | some r => some r
  | none => parse_added input

/-- nom `many0(parse_entry)`: collect entries until the first failure, which
ends collection silently.  Fuel-indexed for termination; a successful
`parse_entry` always consumes input, so fuel `input.length + 1` is enough. -/
def many0Entries : Nat → Str → List Entry × Str
  | 0, input => ([], input)
  | fuel + 1, input =>
    match parse_entry input with
    | none => ([], input)
    | some (rest, e) =>
      (e :: (many0Entries fuel rest).1, (many0Entries fuel rest).2)

/-- The document pipeline of `main.rs`: parse the header, then
`many0(parse_entry)` on the remainder; a header failure is fatal. -/
def parse_document (input : Str) : Option (List Entry × Str) :=
  match parse_header input with
  | none => none
  | some (rest, _) => some (many0Entries (rest.length + 1) rest)

/-- A concrete same-provider, same-repository update whose commits are longer
than 8 characters, used to exhibit the exact format of the derived diff URL. -/
def cexUpdate : UpdateInfo :=
  { fromRef := { flake_ref := { ref_type := FlakeRefType.Github,
                                repo := "iff/flakers".toList,
                                commit := "aaaaaaaaaaaa".toList },
                 date := "2025-10-03".toList },
    toRef := { flake_ref := { ref_type := FlakeRefType.Github,
                              repo := "iff/flakers".toList,
                              commit := "bbbbbbbbbbbb".toList },
               date := "2025-10-10".toList } }

/-! ## Helper lemmas about the combinators -/

theorem tagP_append (t r : Str) : tagP t (t ++ r) = some r := by
  induction t with
  | nil => rfl
  | cons c t ih => simp [tagP, ih]

theorem tagP_eq_some : ∀ {t i r : Str}, tagP t i = some r → i = t ++ r := by
  intro t
  induction t with
  | nil => intro i r h; simpa [tagP] using h
  | cons c t ih =>
    intro i r h
    cases i with
    | nil => simp [tagP] at h
    | cons d i =>
      simp only [tagP] at h
      by_cases hcd : c = d
      · subst hcd
        simp only [if_pos rfl] at h
        simpa using ih h
      · simp [if_neg hcd] at h

theorem takeUntilSeq_single {c : Char} {l : Str} (hc : c ∉ l) (r : Str) :
    takeUntilSeq [c] (l ++ c :: r) = some (c :: r, l) := by
  induction l with
  | nil => simp [takeUntilSeq, List.isPrefixOf]
  | cons d l ih =>
    have hc' : c ∉ l := fun hm => hc (List.mem_cons_of_mem _ hm)
    have hcd : (c == d) = false := by
      refine beq_eq_false_iff_ne.mpr ?_
      intro he
      exact hc (by simp [he])
    have hdc : [c].isPrefixOf (d :: (l ++ c :: r)) = false := by
      simp [List.isPrefixOf, hcd]
    simp only [List.cons_append, takeUntilSeq, List.append_eq]
    rw [hdc]
    simp only [Bool.false_eq_true, if_false, ih hc']

theorem takeWhile_append_all {p : Char → Bool} :
    ∀ {l : Str}, (∀ x ∈ l, p x = true) → ∀ r : Str,
      (l ++ r).takeWhile p = l ++ r.takeWhile p := by
  intro l
  induction l with
  | nil => intro _ r; rfl
  | cons c l ih =>
    intro h r
    have hc : p c = true := h c (List.mem_cons_self c l)
    simp only [List.cons_append, List.takeWhile_cons, hc, if_pos]
    rw [ih (fun x hx => h x (List.mem_cons_of_mem _ hx)) r]

theorem dropWhile_append_all {p : Char → Bool} :
    ∀ {l : Str}, (∀ x ∈ l, p x = true) → ∀ r : Str,
      (l ++ r).dropWhile p = r.dropWhile p := by
  intro l
  induction l with
  | nil => intro _ r; rfl
  | cons c l ih =>
    intro h r
    have hc : p c = true := h c (List.mem_cons_self c l)
    simp only [List.cons_append, List.dropWhile_cons, hc, if_pos]
    exact ih (fun x hx => h x (List.mem_cons_of_mem _ hx)) r

/-- A list on which `takeWhile p` stops immediately: empty, or headed by a
character failing `p`. -/
def stopsHere (p : Char → Bool) (r : Str) : Prop :=
  r = [] ∨ ∃ c r2, r = c :: r2 ∧ p c = false

theorem takeWhile_stopsHere {p : Char → Bool} {r : Str} (h : stopsHere p r) :
    r.takeWhile p = [] := by
  rcases h with rfl | ⟨c, r2, rfl, hc⟩
  · rfl
  · simp [List.takeWhile_cons, hc]

theorem dropWhile_stopsHere {p : Char → Bool} {r : Str} (h : stopsHere p r) :
    r.dropWhile p = r := by
  rcases h with rfl | ⟨c, r2, rfl, hc⟩
  · rfl
  · simp [List.dropWhile_cons, hc]

theorem takeWhile1P_append {p : Char → Bool} {l r : Str} (hne : l ≠ [])
    (hall : ∀ x ∈ l, p x = true) (hr : stopsHere p r) :
    takeWhile1P p (l ++ r) = some (r, l) := by
  have ht : (l ++ r).takeWhile p = l := by
    rw [takeWhile_append_all hall r, takeWhile_stopsHere hr, List.append_nil]
  have hd : (l ++ r).dropWhile p = r := by
    rw [dropWhile_append_all hall r, dropWhile_stopsHere hr]
  unfold takeWhile1P
  rw [ht, hd]
  cases l with
  | nil => exact absurd rfl hne
  | cons c l => rfl

theorem takeWhile1P_stopsHere {p : Char → Bool} {r : Str} (hr : stopsHere p r) :
    takeWhile1P p r = none := by
  unfold takeWhile1P
  rw [takeWhile_stopsHere hr]

theorem splitLastSlash_no_slash : ∀ {r : Str}, '/' ∉ r → splitLastSlash r = none := by
  intro r
  induction r with
  | nil => intro _; rfl
  | cons c r ih =>
    intro h
    have hc : c ≠ '/' := fun hc => h (by simp [hc])
    have hr : '/' ∉ r := fun hm => h (List.mem_cons_of_mem _ hm)
    simp [splitLastSlash, ih hr, if_neg (fun he => hc he)]

theorem splitLastSlash_append {l r : Str} (h : '/' ∉ r) :
    splitLastSlash (l ++ '/' :: r) = some (l, r) := by
  induction l with
  | nil => simp [splitLastSlash, splitLastSlash_no_slash h]
  | cons c l ih => simp [splitLastSlash, ih]

theorem lineEnding_nl (r : Str) : lineEnding ('\n' :: r) = some r := by
  simp [lineEnding]

theorem lineEnding_crnl (r : Str) : lineEnding ('\r' :: '\n' :: r) = some r := by
  simp [lineEnding]

theorem lineEnding_eq_some {i r : Str} (h : lineEnding i = some r) :
    i = '\n' :: r ∨ i = '\r' :: '\n' :: r := by
  cases i with
  | nil => simp [lineEnding] at h
  | cons c rest =>
    by_cases hc : c = '\n'
    · subst hc
      rw [lineEnding_nl] at h
      injection h with h2
      exact Or.inl (by rw [h2])
    · by_cases hcr : c = '\r'
      · subst hcr
        cases rest with
        | nil => simp [lineEnding] at h
        | cons d rest2 =>
          by_cases hd : d = '\n'
          · subst hd
            rw [lineEnding_crnl] at h
            injection h with h2
            exact Or.inr (by rw [h2])
          · simp [lineEnding, hd] at h
      · simp [lineEnding, hc, hcr] at h

theorem space0_stopsHere {r : Str} (h : stopsHere isSpaceTab r) : space0 r = r :=
  dropWhile_stopsHere h

theorem tagP_single (c : Char) (r : Str) : tagP [c] (c :: r) = some r := by
  simp [tagP]

theorem tagP_cons_same (c : Char) (t l : Str) : tagP (c :: t) (c :: l) = tagP t l := by
  simp [tagP]

theorem tagP_cons_ne {c d : Char} (h : c ≠ d) (t l : Str) :
    tagP (c :: t) (d :: l) = none := by
  simp [tagP, h]

theorem notQN_of_ne {c : Char} (h1 : c ≠ '?') (h2 : c ≠ '\n') : notQN c = true := by
  simp [notQN, h1, h2]

/-! ### Remainder-length facts: every successful component parse leaves a
remainder no longer than its input, and a successful `parse_entry` strictly
consumes input.  These establish that the fuel `input.length + 1` used by
`parse_document` is always sufficient for `many0Entries`. -/

theorem length_le_of_eq_append {a b c : Str} (h : a = b ++ c) : c.length ≤ a.length := by
  subst h
  rw [List.length_append]
  omega

theorem tagP_length {t i r : Str} (h : tagP t i = some r) : r.length ≤ i.length :=
  length_le_of_eq_append (tagP_eq_some h)

theorem tagP_length_lt {t i r : Str} (h : tagP t i = some r) (ht : t ≠ []) :
    r.length < i.length := by
  have he := tagP_eq_some h
  subst he
  cases t with
  | nil => exact absurd rfl ht
  | cons c t =>
    rw [List.length_append, List.length_cons]
    omega

theorem takeUntilSeq_eq_some {pat : Str} :
    ∀ {i rem taken : Str}, takeUntilSeq pat i = some (rem, taken) → i = taken ++ rem := by
  intro i
  induction i with
  | nil =>
    intro rem taken h
    unfold takeUntilSeq at h
    by_cases hp : pat.isPrefixOf ([] : Str) = true
    · rw [if_pos hp] at h
      simp only [Option.some.injEq, Prod.mk.injEq] at h
      obtain ⟨h1, h2⟩ := h
      rw [← h1, ← h2]
      rfl
    · rw [if_neg hp] at h
      exact Option.noConfusion h
  | cons c rest ih =>
    intro rem taken h
    unfold takeUntilSeq at h
    by_cases hp : pat.isPrefixOf (c :: rest) = true
    · rw [if_pos hp] at h
      simp only [Option.some.injEq, Prod.mk.injEq] at h
      obtain ⟨h1, h2⟩ := h
      rw [← h1, ← h2]
      rfl
    · rw [if_neg hp] at h
      cases hrec : takeUntilSeq pat rest with
      | none => rw [hrec] at h; exact Option.noConfusion h
      | some p =>
        cases p with
        | mk rem2 taken2 =>
          simp only [hrec, Option.some.injEq, Prod.mk.injEq] at h
          obtain ⟨h1, h2⟩ := h
          subst h1
          rw [← h2, ih hrec]
          rfl

theorem takeWhile1P_eq_some {p : Char → Bool} {i rem taken : Str}
    (h : takeWhile1P p i = some (rem, taken)) : i = taken ++ rem := by
  unfold takeWhile1P at h
  cases htw : i.takeWhile p with
  | nil =>
    simp only [htw] at h
    exact Option.noConfusion h
  | cons c l =>
    simp only [htw, Option.some.injEq, Prod.mk.injEq] at h
    obtain ⟨h1, h2⟩ := h
    rw [← h1, ← h2, ← htw, List.takeWhile_append_dropWhile]

theorem dropWhile_length_le (p : Char → Bool) (l : Str) :
    (l.dropWhile p).length ≤ l.length := by
  induction l with
  | nil => simp
  | cons c l ih =>
    rw [List.dropWhile_cons]
    by_cases h : p c = true
    · rw [if_pos h, List.length_cons]
      exact Nat.le_succ_of_le ih
    · rw [if_neg h]

theorem space0_length (i : Str) : (space0 i).length ≤ i.length :=
  dropWhile_length_le isSpaceTab i

theorem space1P_length {i r : Str} (h : space1P i = some r) : r.length ≤ i.length := by
  cases i with
  | nil => simp [space1P] at h
  | cons c rest =>
    simp only [space1P] at h
    by_cases hc : isSpaceTab c = true
    · rw [if_pos hc] at h
      injection h with h2
      rw [← h2, List.length_cons]
      exact Nat.le_succ_of_le (dropWhile_length_le _ _)
    · rw [if_neg hc] at h
      exact Option.noConfusion h

theorem lineEnding_length {i r : Str} (h : lineEnding i = some r) :
    r.length < i.length := by
  rcases lineEnding_eq_some h with h2 | h2 <;>
    (subst h2; simp only [List.length_cons]; omega)

theorem datedFlakeRef_parse_length {i rem : Str} {d : DatedFlakeRef}
    (h : DatedFlakeRef.parse_from i = some (rem, d)) : rem.length ≤ i.length := by
  unfold DatedFlakeRef.parse_from at h
  cases h1 : tagP ['\''] (space0 i) with
  | none => simp only [h1] at h; exact Option.noConfusion h
  | some i1 =>
    simp only [h1] at h
    cases h2 : takeUntilSeq ['\''] i1 with
    | none => simp only [h2] at h; exact Option.noConfusion h
    | some p2 =>
      obtain ⟨i2, url⟩ := p2
      simp only [h2] at h
      cases h3 : tagP ['\''] i2 with
      | none => simp only [h3] at h; exact Option.noConfusion h
      | some i3 =>
        simp only [h3] at h
        cases h4 : space1P i3 with
        | none => simp only [h4] at h; exact Option.noConfusion h
        | some i4 =>
          simp only [h4] at h
          cases h5 : tagP ['('] i4 with
          | none => simp only [h5] at h; exact Option.noConfusion h
          | some i5 =>
            simp only [h5] at h
            cases h6 : takeUntilSeq [')'] i5 with
            | none => simp only [h6] at h; exact Option.noConfusion h
            | some p6 =>
              obtain ⟨i6, date⟩ := p6
              simp only [h6] at h
              cases h7 : tagP [')'] i6 with
              | none => simp only [h7] at h; exact Option.noConfusion h
              | some i7 =>
                simp only [h7] at h
                cases h8 : lineEnding i7 with
                | none => simp only [h8] at h; exact Option.noConfusion h
                | some i8 =>
                  simp only [h8] at h
                  cases h9 : FlakeRef.parse_from url with
                  | none => simp only [h9] at h; exact Option.noConfusion h
                  | some p9 =>
                    obtain ⟨u9, fr⟩ := p9
                    simp only [h9, Option.some.injEq, Prod.mk.injEq] at h
                    obtain ⟨hrem, -⟩ := h
                    subst hrem
                    have l0 := space0_length i
                    have l1 := tagP_length h1
                    have l2 := length_le_of_eq_append (takeUntilSeq_eq_some h2)
                    have l3 := tagP_length h3
                    have l4 := space1P_length h4
                    have l5 := tagP_length h5
                    have l6 := length_le_of_eq_append (takeUntilSeq_eq_some h6)
                    have l7 := tagP_length h7
                    have l8 := lineEnding_length h8
                    omega

theorem updateInfo_parse_length {i rem : Str} {u : UpdateInfo}
    (h : UpdateInfo.parse_from i = some (rem, u)) : rem.length ≤ i.length := by
  unfold UpdateInfo.parse_from at h
  cases h1 : DatedFlakeRef.parse_from i with
  | none => simp only [h1] at h; exact Option.noConfusion h
  | some p1 =>
    obtain ⟨i1, fr⟩ := p1
    simp only [h1] at h
    cases h2 : tagP ['→'] (space0 i1) with
    | none => simp only [h2] at h; exact Option.noConfusion h
    | some i2 =>
      simp only [h2] at h
      cases h3 : DatedFlakeRef.parse_from i2 with
      | none => simp only [h3] at h; exact Option.noConfusion h
      | some p3 =>
        obtain ⟨i3, tr⟩ := p3
        simp only [h3, Option.some.injEq, Prod.mk.injEq] at h
        obtain ⟨hrem, -⟩ := h
        subst hrem
        have l0 := datedFlakeRef_parse_length h1
        have l1 := space0_length i1
        have l2 := tagP_length h2
        have l3 := datedFlakeRef_parse_length h3
        omega

theorem followsAlt_length {i rem : Str} {a : AddInfo}
    (h : AddInfo.followsAlt i = some (rem, a)) : rem.length ≤ i.length := by
  unfold AddInfo.followsAlt at h
  cases h1 : tagP "follows ".toList (space0 i) with
  | none => simp only [h1] at h; exact Option.noConfusion h
  | some i1 =>
    simp only [h1] at h
    cases h2 : tagP ['\''] i1 with
    | none => simp only [h2] at h; exact Option.noConfusion h
    | some i2 =>
      simp only [h2] at h
      cases h3 : takeUntilSeq ['\''] i2 with
      | none => simp only [h3] at h; exact Option.noConfusion h
      | some p3 =>
        obtain ⟨i3, repo⟩ := p3
        simp only [h3] at h
        cases h4 : tagP ['\''] i3 with
        | none => simp only [h4] at h; exact Option.noConfusion h
        | some i4 =>
          simp only [h4] at h
          cases h5 : lineEnding i4 with
          | none => simp only [h5] at h; exact Option.noConfusion h
          | some i5 =>
            simp only [h5, Option.some.injEq, Prod.mk.injEq] at h
            obtain ⟨hrem, -⟩ := h
            subst hrem
            have l0 := space0_length i
            have l1 := tagP_length h1
            have l2 := tagP_length h2
            have l3 := length_le_of_eq_append (takeUntilSeq_eq_some h3)
            have l4 := tagP_length h4
            have l5 := lineEnding_length h5
            omega

theorem addInfo_parse_length {i rem : Str} {a : AddInfo}
    (h : AddInfo.parse_from i = some (rem, a)) : rem.length ≤ i.length := by
  unfold AddInfo.parse_from at h
  cases h1 : AddInfo.followsAlt i with
  | some p1 =>
    obtain ⟨i1, a1⟩ := p1
    simp only [h1, Option.some.injEq, Prod.mk.injEq] at h
    obtain ⟨hrem, -⟩ := h
    subst hrem
    exact followsAlt_length h1
  | none =>
    simp only [h1] at h
    cases h2 : DatedFlakeRef.parse_from i with
    | none => simp only [h2] at h; exact Option.noConfusion h
    | some p2 =>
      obtain ⟨i2, dref⟩ := p2
      simp only [h2, Option.some.injEq, Prod.mk.injEq] at h
      obtain ⟨hrem, -⟩ := h
      subst hrem
      exact datedFlakeRef_parse_length h2

theorem parse_updated_consumes {i rem : Str} {e : Entry}
    (h : parse_updated i = some (rem, e)) : rem.length < i.length := by
  unfold parse_updated at h
  cases h1 : tagP "• Updated input '".toList i with
  | none => simp only [h1] at h; exact Option.noConfusion h
  | some i1 =>
    simp only [h1] at h
    cases h2 : takeUntilSeq "':".toList i1 with
    | none => simp only [h2] at h; exact Option.noConfusion h
    | some p2 =>
      obtain ⟨i2, package⟩ := p2
      simp only [h2] at h
      cases h3 : tagP "':".toList i2 with
      | none => simp only [h3] at h; exact Option.noConfusion h
      | some i3 =>
        simp only [h3] at h
        cases h4 : lineEnding i3 with
        | none => simp only [h4] at h; exact Option.noConfusion h
        | some i4 =>
          simp only [h4] at h
          cases h5 : UpdateInfo.parse_from i4 with
          | none => simp only [h5] at h; exact Option.noConfusion h
          | some p5 =>
            obtain ⟨i5, info⟩ := p5
            simp only [h5, Option.some.injEq, Prod.mk.injEq] at h
            obtain ⟨hrem, -⟩ := h
            subst hrem
            have l0 := tagP_length_lt h1 (by decide)
            have l1 := length_le_of_eq_append (takeUntilSeq_eq_some h2)
            have l2 := tagP_length h3
            have l3 := lineEnding_length h4
            have l4 := updateInfo_parse_length h5
            omega

theorem parse_added_consumes {i rem : Str} {e : Entry}
    (h : parse_added i = some (rem, e)) : rem.length < i.length := by
  unfold parse_added at h
  cases h1 : tagP "• Added input '".toList i with
  | none => simp only [h1] at h; exact Option.noConfusion h
  | some i1 =>
    simp only [h1] at h
    cases h2 : takeUntilSeq "':".toList i1 with
    | none => simp only [h2] at h; exact Option.noConfusion h
    | some p2 =>
      obtain ⟨i2, nm⟩ := p2
      simp only [h2] at h
      cases h3 : tagP "':".toList i2 with
      | none => simp only [h3] at h; exact Option.noConfusion h
      | some i3 =>
        simp only [h3] at h
        cases h4 : lineEnding i3 with
        | none => simp only [h4] at h; exact Option.noConfusion h
        | some i4 =>
          simp only [h4] at h
          cases h5 : AddInfo.parse_from i4 with
          | none => simp only [h5] at h; exact Option.noConfusion h
          | some p5 =>
            obtain ⟨i5, info⟩ := p5
            simp only [h5, Option.some.injEq, Prod.mk.injEq] at h
            obtain ⟨hrem, -⟩ := h
            subst hrem
            have l0 := tagP_length_lt h1 (by decide)
            have l1 := length_le_of_eq_append (takeUntilSeq_eq_some h2)
            have l2 := tagP_length h3
            have l3 := lineEnding_length h4
            have l4 := addInfo_parse_length h5
            omega

theorem parse_entry_consumes {i rem : Str} {e : Entry}
    (h : parse_entry i = some (rem, e)) : rem.length < i.length := by
  unfold parse_entry at h
  cases h1 : parse_updated i with
  | some p1 =>
    obtain ⟨i1, e1⟩ := p1
    simp only [h1, Option.some.injEq, Prod.mk.injEq] at h
    obtain ⟨hrem, -⟩ := h
    subst hrem
    exact parse_updated_consumes h1
  | none =>
    simp only [h1] at h
    exact parse_added_consumes h

theorem many0Entries_irrel : ∀ fuel1 fuel2 : Nat, ∀ input : Str,
    input.length < fuel1 → input.length < fuel2 →
    many0Entries fuel1 input = many0Entries fuel2 input := by
  intro fuel1
  induction fuel1 with
  | zero => intro fuel2 input h1 _; omega
  | succ f ih =>
    intro fuel2 input h1 h2
    cases fuel2 with
    | zero => omega
    | succ g =>
      simp only [many0Entries]
      cases hpe : parse_entry input with
      | none => rfl
      | some p =>
        obtain ⟨r, e⟩ := p
        have hlt := parse_entry_consumes hpe
        show (e :: (many0Entries f r).1, (many0Entries f r).2) =
             (e :: (many0Entries g r).1, (many0Entries g r).2)
        rw [ih g r (by omega) (by omega)]

/-- With sufficient fuel, `many0Entries` satisfies the fuel-free recurrence of
nom's `many0`: collect the entry and continue at the remainder when
`parse_entry` succeeds, stop and return the untouched input when it fails.
A successful `parse_entry` strictly consumes input, so the recursion is
well-founded and the re-normalized fuel is again sufficient. -/
theorem many0Entries_unfold (fuel : Nat) (input : Str) (h : input.length < fuel) :
    many0Entries fuel input =
      (match parse_entry input with
       | none => ([], input)
       | some (r, e) =>
         (e :: (many0Entries (r.length + 1) r).1,
          (many0Entries (r.length + 1) r).2)) := by
  cases fuel with
  | zero => omega
  | succ f =>
    simp only [many0Entries]
    cases hpe : parse_entry input with
    | none => rfl
    | some p =>
      obtain ⟨r, e⟩ := p
      have hlt := parse_entry_consumes hpe
      show (e :: (many0Entries f r).1, (many0Entries f r).2) =
           (e :: (many0Entries (r.length + 1) r).1, (many0Entries (r.length + 1) r).2)
      rw [many0Entries_irrel f (r.length + 1) r (by omega) (by omega)]

/-- Shared unfolding of `FlakeRef.parse_from` on an input split as a colon-free
provider tag, a maximal `'?'`/newline-free body, and the rest. -/
theorem flakeRef_parse_step (ptag body sfx : Str)
    (hc : ':' ∉ ptag)
    (hb : ∀ c ∈ body, c ≠ '?' ∧ c ≠ '\n')
    (hbne : body ≠ [])
    (hsfx : stopsHere notQN sfx) :
    FlakeRef.parse_from (ptag ++ ':' :: (body ++ sfx)) =
      (match FlakeRefType.tryFrom ptag with
       | none => none
       | some ref_type =>
         if body.count '/' = 2 then
           match splitLastSlash body with
           | none => none
           | some (repo, commit) => some (optQuery sfx, ⟨ref_type, repo, commit⟩)
         else none) := by
  have hall : ∀ x ∈ body, notQN x = true := by
    intro x hx
    rcases hb x hx with ⟨h1, h2⟩
    exact notQN_of_ne h1 h2
  simp only [FlakeRef.parse_from, takeUntilSeq_single hc (body ++ sfx), tagP_single,
             takeWhile1P_append hbne hall hsfx]

/-- `flakeRef_parse_step` specialized to a recognized provider tag. -/
theorem flakeRef_parse_stepSome (ptag : Str) (ty : FlakeRefType) (body sfx : Str)
    (hp : FlakeRefType.tryFrom ptag = some ty)
    (hc : ':' ∉ ptag)
    (hb : ∀ c ∈ body, c ≠ '?' ∧ c ≠ '\n')
    (hbne : body ≠ [])
    (hsfx : stopsHere notQN sfx) :
    FlakeRef.parse_from (ptag ++ ':' :: (body ++ sfx)) =
      (if body.count '/' = 2 then
        match splitLastSlash body with
        | none => none
        | some (repo, commit) => some (optQuery sfx, ⟨ty, repo, commit⟩)
      else none) := by
  have hall : ∀ x ∈ body, notQN x = true := by
    intro x hx
    rcases hb x hx with ⟨h1, h2⟩
    exact notQN_of_ne h1 h2
  simp only [FlakeRef.parse_from, takeUntilSeq_single hc (body ++ sfx), tagP_single, hp,
             takeWhile1P_append hbne hall hsfx]

theorem count_slash_two {org nm commit : Str}
    (ho : '/' ∉ org) (hn : '/' ∉ nm) (hm : '/' ∉ commit) :
    (org ++ '/' :: nm ++ '/' :: commit).count '/' = 2 := by
  have h0 : ∀ {l : Str}, '/' ∉ l → l.count '/' = 0 := by
    intro l hl
    exact List.count_eq_zero.mpr hl
  simp [List.count_append, List.count_cons, h0 ho, h0 hn, h0 hm]

/-! ## The claims -/

/-- C2: parsing `<provider>:<org>/<name>/<commit>` with a recognized provider
tag and exactly two slashes in the body succeeds, splitting the body at its
last `'/'` (repository path before, commit after), and appending any `?`-query
suffix yields the identical structured `FlakeRef` (the suffix only affects the
consumed remainder). -/
theorem C2_locator_split_and_query (ptag : Str) (ty : FlakeRefType)
    (org nm commit q : Str)
    (hp : FlakeRefType.tryFrom ptag = some ty)
    (hcolon : ':' ∉ ptag)
    (ho : ∀ c ∈ org, c ≠ '/' ∧ c ≠ '?' ∧ c ≠ '\n')
    (hn : ∀ c ∈ nm, c ≠ '/' ∧ c ≠ '?' ∧ c ≠ '\n')
    (hm : ∀ c ∈ commit, c ≠ '/' ∧ c ≠ '?' ∧ c ≠ '\n') :
    FlakeRef.parse_from (ptag ++ ':' :: (org ++ '/' :: nm ++ '/' :: commit)) =
      some ([], ⟨ty, org ++ '/' :: nm, commit⟩) ∧
    ∃ rest,
      FlakeRef.parse_from
          (ptag ++ ':' :: ((org ++ '/' :: nm ++ '/' :: commit) ++ '?' :: q)) =
        some (rest, ⟨ty, org ++ '/' :: nm, commit⟩) := by
  have hb : ∀ c ∈ org ++ '/' :: nm ++ '/' :: commit, c ≠ '?' ∧ c ≠ '\n' := by
    intro c hcm
    rcases List.mem_append.mp hcm with h | h
    · rcases List.mem_append.mp h with h | h
      · exact ⟨(ho c h).2.1, (ho c h).2.2⟩
      · rcases List.mem_cons.mp h with rfl | h
        · exact ⟨by decide, by decide⟩
        · exact ⟨(hn c h).2.1, (hn c h).2.2⟩
    · rcases List.mem_cons.mp h with rfl | h
      · exact ⟨by decide, by decide⟩
      · exact ⟨(hm c h).2.1, (hm c h).2.2⟩
  have hbne : org ++ '/' :: nm ++ '/' :: commit ≠ [] := by
    intro h
    rcases List.append_eq_nil.mp h with ⟨-, h2⟩
    exact List.cons_ne_nil _ _ h2
  have hcount : (org ++ '/' :: nm ++ '/' :: commit).count '/' = 2 :=
    count_slash_two (fun h => (ho _ h).1 rfl) (fun h => (hn _ h).1 rfl)
      (fun h => (hm _ h).1 rfl)
  have hsplit : splitLastSlash (org ++ '/' :: nm ++ '/' :: commit) =
      some (org ++ '/' :: nm, commit) :=
    splitLastSlash_append (fun h => (hm _ h).1 rfl)
  constructor
  · have hstep := flakeRef_parse_stepSome ptag ty (org ++ '/' :: nm ++ '/' :: commit) []
      hp hcolon hb hbne (Or.inl rfl)
    rw [List.append_nil] at hstep
    rw [hstep, if_pos hcount, hsplit]
    rfl
  · refine ⟨optQuery ('?' :: q), ?_⟩
    have hstep := flakeRef_parse_stepSome ptag ty (org ++ '/' :: nm ++ '/' :: commit)
      ('?' :: q) hp hcolon hb hbne (Or.inr ⟨'?', q, rfl, by decide⟩)
    rw [hstep, if_pos hcount, hsplit]

/-- C2 witness: the concrete locator of the repository's unit test, with and
without a query suffix. -/
theorem C2_locator_split_and_query_witness :
    FlakeRef.parse_from
        ("github".toList ++ ':' ::
          ("nix-community".toList ++ '/' :: "home-manager".toList ++ '/' ::
            "bd92e8ee4a6031ca3dd836c91dc41c13fca1e533".toList)) =
      some ([], ⟨FlakeRefType.Github,
                 "nix-community".toList ++ '/' :: "home-manager".toList,
                 "bd92e8ee4a6031ca3dd836c91dc41c13fca1e533".toList⟩) ∧
    ∃ rest,
      FlakeRef.parse_from
          ("github".toList ++ ':' ::
            (("nix-community".toList ++ '/' :: "home-manager".toList ++ '/' ::
              "bd92e8ee4a6031ca3dd836c91dc41c13fca1e533".toList) ++ '?' ::
              "shallow=1".toList)) =
        some (rest, ⟨FlakeRefType.Github,
                     "nix-community".toList ++ '/' :: "home-manager".toList,
                     "bd92e8ee4a6031ca3dd836c91dc41c13fca1e533".toList⟩) :=
  C2_locator_split_and_query "github".toList FlakeRefType.Github
    "nix-community".toList "home-manager".toList
    "bd92e8ee4a6031ca3dd836c91dc41c13fca1e533".toList "shallow=1".toList
    (by decide) (by decide) (by decide) (by decide) (by decide)

/-- C6: a locator whose body (the maximal run of non-`'?'`, non-newline
characters after the provider's `':'`) is empty or does not contain exactly
two `'/'` characters fails to parse, whatever the provider tag. -/
theorem C6_bad_body_fails (ptag body sfx : Str)
    (hcolon : ':' ∉ ptag)
    (hb : ∀ c ∈ body, c ≠ '?' ∧ c ≠ '\n')
    (hsfx : stopsHere notQN sfx)
    (hbad : body = [] ∨ body.count '/' ≠ 2) :
    FlakeRef.parse_from (ptag ++ ':' :: (body ++ sfx)) = none := by
  by_cases hbe : body = []
  · subst hbe
    rw [List.nil_append]
    simp only [FlakeRef.parse_from, takeUntilSeq_single hcolon sfx, tagP_single]
    cases FlakeRefType.tryFrom ptag with
    | none => rfl
    | some ty => rw [takeWhile1P_stopsHere hsfx]
  · have hcount : body.count '/' ≠ 2 := by
      rcases hbad with h | h
      · exact absurd h hbe
      · exact h
    rw [flakeRef_parse_step ptag body sfx hcolon hb hbe hsfx]
    cases FlakeRefType.tryFrom ptag with
    | none => rfl
    | some ty => simp [hcount]

/-- C6 witness: one-slash, zero-slash, three-slash and empty bodies all fail
on a recognized provider. -/
theorem C6_bad_body_fails_witness :
    FlakeRef.parse_from ("github".toList ++ ':' :: ("org/commit".toList ++ [])) = none ∧
    FlakeRef.parse_from ("github".toList ++ ':' :: ("orgcommit".toList ++ [])) = none ∧
    FlakeRef.parse_from ("github".toList ++ ':' :: ("a/b/c/d".toList ++ [])) = none ∧
    FlakeRef.parse_from ("github".toList ++ ':' :: ([] ++ "?q".toList)) = none :=
  ⟨C6_bad_body_fails "github".toList "org/commit".toList [] (by decide) (by decide)
      (Or.inl rfl) (by decide),
   C6_bad_body_fails "github".toList "orgcommit".toList [] (by decide) (by decide)
      (Or.inl rfl) (by decide),
   C6_bad_body_fails "github".toList "a/b/c/d".toList [] (by decide) (by decide)
      (Or.inl rfl) (by decide),
   C6_bad_body_fails "github".toList [] "?q".toList (by decide) (by decide)
      (Or.inr ⟨'?', "q".toList, rfl, by decide⟩) (Or.inl rfl)⟩

/-- C7: a provider tag (the text before the first `':'`) that is not exactly
`"github"` or `"gitlab"` makes locator parsing fail outright, whatever
follows the colon. -/
theorem C7_unknown_provider_fails (ptag rest : Str)
    (hcolon : ':' ∉ ptag)
    (hgh : ptag ≠ "github".toList)
    (hgl : ptag ≠ "gitlab".toList) :
    FlakeRef.parse_from (ptag ++ ':' :: rest) = none := by
  have htf : FlakeRefType.tryFrom ptag = none := by
    unfold FlakeRefType.tryFrom
    rw [if_neg hgh, if_neg hgl]
  simp only [FlakeRef.parse_from, takeUntilSeq_single hcolon rest, tagP_single, htf]

/-- C7 witness: `bitbucket` with an otherwise valid body fails. -/
theorem C7_unknown_provider_fails_witness :
    FlakeRef.parse_from ("bitbucket".toList ++ ':' :: "org/name/c1234567".toList) = none :=
  C7_unknown_provider_fails "bitbucket".toList "org/name/c1234567".toList
    (by decide) (by decide) (by decide)

/-- C1 counterexample: an Updated entry whose sides share provider and
repository but whose commits are 12 characters long; the derived diff URL is
present but is NOT `<repo_url>/compare/<from_short>...<to_short>` built from
the abbreviated 8-character commits, refuting the claimed format. -/
theorem C1_diff_url_counterexample :
    cexUpdate.fromRef.flake_ref.repo = cexUpdate.toRef.flake_ref.repo ∧
    cexUpdate.fromRef.flake_ref.ref_type = cexUpdate.toRef.flake_ref.ref_type ∧
    cexUpdate.url ≠
      some (cexUpdate.fromRef.flake_ref.repo_url ++ "/compare/".toList ++
            cexUpdate.fromRef.flake_ref.commit.take 8 ++ "...".toList ++
            cexUpdate.toRef.flake_ref.commit.take 8) := by
  refine ⟨rfl, rfl, ?_⟩
  decide

/-- C1 (amended): for an Updated entry whose sides share provider and
repository the diff URL is present and equals the from side's repository URL
followed by `/compare/` and the two FULL (unabbreviated) commits; when the
provider or repository differ the diff URL is absent. -/
theorem C1_diff_url_format (u : UpdateInfo) :
    (u.fromRef.flake_ref.repo = u.toRef.flake_ref.repo ∧
       u.fromRef.flake_ref.ref_type = u.toRef.flake_ref.ref_type →
      u.url = some (u.fromRef.flake_ref.repo_url ++ "/compare/".toList ++
                    u.fromRef.flake_ref.commit ++ "...".toList ++
                    u.toRef.flake_ref.commit)) ∧
    (u.fromRef.flake_ref.repo ≠ u.toRef.flake_ref.repo ∨
       u.fromRef.flake_ref.ref_type ≠ u.toRef.flake_ref.ref_type →
      u.url = none) := by
  constructor
  · rintro ⟨h1, h2⟩
    unfold UpdateInfo.url
    rw [if_neg]
    intro hcon
    rcases hcon with h | h
    · exact h h1
    · exact h h2
  · intro h
    unfold UpdateInfo.url
    rw [if_pos h]

/-- C1 witness: the amended format at a concrete same-repository update, and
absence at a concrete cross-repository update. -/
theorem C1_diff_url_format_witness :
    cexUpdate.url = some (cexUpdate.fromRef.flake_ref.repo_url ++ "/compare/".toList ++
        cexUpdate.fromRef.flake_ref.commit ++ "...".toList ++
        cexUpdate.toRef.flake_ref.commit) ∧
    UpdateInfo.url
        { fromRef := { flake_ref := ⟨FlakeRefType.Github, "a/b".toList, "aaaaaaaa".toList⟩,
                       date := "d1".toList },
          toRef := { flake_ref := ⟨FlakeRefType.Github, "c/d".toList, "bbbbbbbb".toList⟩,
                     date := "d2".toList } } = none :=
  ⟨(C1_diff_url_format cexUpdate).1 ⟨rfl, rfl⟩,
   (C1_diff_url_format _).2 (Or.inl (by decide))⟩

/-- C3: rendering an Updated entry whose diff URL is absent is a hard failure
(the summary is `none`, modelling the `unwrap` panic), never a line with the
link omitted. -/
theorem C3_summary_absent_url_fails (name : Str) (info : UpdateInfo)
    (h : info.url = none) :
    Entry.summary (Entry.Updated name info) = none := by
  cases hfs : info.fromRef.flake_ref.sha with
  | none => simp [Entry.summary, hfs]
  | some fs =>
    cases hts : info.toRef.flake_ref.sha with
    | none => simp [Entry.summary, hfs, hts]
    | some ts => simp [Entry.summary, hfs, hts, h]

/-- C3 witness: a concrete cross-repository update renders to `none`. -/
theorem C3_summary_absent_url_fails_witness :
    Entry.summary (Entry.Updated "dep".toList
      { fromRef := { flake_ref := ⟨FlakeRefType.Github, "a/b".toList, "aaaaaaaa".toList⟩,
                     date := "d1".toList },
        toRef := { flake_ref := ⟨FlakeRefType.Github, "c/d".toList, "bbbbbbbb".toList⟩,
                   date := "d2".toList } }) = none :=
  C3_summary_absent_url_fails "dep".toList _ (by decide)

/-- C4: abbreviating a commit of at least 8 characters yields exactly its
first 8 characters; a shorter commit is a hard failure (`none`, modelling the
out-of-bounds slice panic), never a silent truncation. -/
theorem C4_sha_first_eight (f : FlakeRef) :
    (8 ≤ f.commit.length →
      f.sha = some (f.commit.take 8) ∧ (f.commit.take 8).length = 8) ∧
    (f.commit.length < 8 → f.sha = none) := by
  constructor
  · intro h
    constructor
    · unfold FlakeRef.sha rustSliceTo
      rw [if_pos h]
    · rw [List.length_take]
      exact Nat.min_eq_left h
  · intro h
    unfold FlakeRef.sha rustSliceTo
    rw [if_neg (by omega)]

/-- C4 witness: a 10-character commit abbreviates to its first 8 characters; a
3-character commit fails. -/
theorem C4_sha_first_eight_witness :
    (⟨FlakeRefType.Github, "o/r".toList, "abcdefghij".toList⟩ : FlakeRef).sha =
      some "abcdefgh".toList ∧
    (⟨FlakeRefType.Github, "o/r".toList, "abc".toList⟩ : FlakeRef).sha = none := by
  constructor
  · have h := ((C4_sha_first_eight
      ⟨FlakeRefType.Github, "o/r".toList, "abcdefghij".toList⟩).1 (by decide)).1
    exact h.trans (by decide)
  · exact (C4_sha_first_eight ⟨FlakeRefType.Github, "o/r".toList, "abc".toList⟩).2 (by decide)

/-- C5: after a successfully parsed header the document-level loop collects
entries by repeatedly attempting `parse_entry` (Updated, else Added) and stops
at the first position where neither block shape matches, silently discarding
everything from that point onward.  Concretely: (i) a successful `parse_entry`
strictly consumes input, so the fuel `length + 1` used by `parse_document` is
always sufficient; (ii) with any sufficient fuel the loop satisfies the
collect-or-stop recurrence — on success the entry is consed and the loop
continues at the remainder, on failure it returns the collected prefix with
the unmatched input untouched and no error; (iii) a parsed header always
yields `some` (never an error), the loop running on the remainder; (iv) in
particular a header followed immediately by unrecognized text yields zero
entries and no error. -/
theorem C5_loop_collects_and_truncates (rest : Str) :
    (∀ r e, parse_entry rest = some (r, e) → r.length < rest.length) ∧
    (∀ fuel, rest.length < fuel →
      many0Entries fuel rest =
        (match parse_entry rest with
         | none => ([], rest)
         | some (r, e) =>
           (e :: (many0Entries (r.length + 1) r).1,
            (many0Entries (r.length + 1) r).2))) ∧
    parse_document ("Flake lock file updates:\n\n".toList ++ rest) =
      some (many0Entries (rest.length + 1) rest) ∧
    (parse_entry rest = none →
      parse_document ("Flake lock file updates:\n\n".toList ++ rest) = some ([], rest)) := by
  have hdoc : parse_document ("Flake lock file updates:\n\n".toList ++ rest) =
      some (many0Entries (rest.length + 1) rest) := by
    have hdr : "Flake lock file updates:\n\n".toList =
        "Flake lock file updates:".toList ++ ['\n', '\n'] := rfl
    unfold parse_document parse_header
    rw [hdr, List.append_assoc]
    simp only [List.cons_append, List.nil_append, tagP_append, lineEnding_nl]
  refine ⟨?_, ?_, hdoc, ?_⟩
  · intro r e h
    exact parse_entry_consumes h
  · intro fuel hf
    exact many0Entries_unfold fuel rest hf
  · intro hnone
    rw [hdoc, many0Entries_unfold _ _ (Nat.lt_succ_self _), hnone]

/-- C5 witness: a document whose body is one valid Added block followed by
unrecognized text parses (no error) to exactly that entry with the text as
remainder; the loop equation at the garbage position stops with it untouched;
the block strictly consumed input; and a header followed immediately by the
garbage alone yields zero entries. -/
theorem C5_loop_collects_and_truncates_witness :
    parse_document ("Flake lock file updates:\n\n".toList ++
        "• Added input 'x':\n    follows 'y'\n???garbage".toList) =
      some ([Entry.Added (AddInfo.Follows "y".toList)], "???garbage".toList) ∧
    many0Entries 100 "???garbage".toList = ([], "???garbage".toList) ∧
    "???garbage".toList.length <
      "• Added input 'x':\n    follows 'y'\n???garbage".toList.length ∧
    parse_document ("Flake lock file updates:\n\n".toList ++ "???garbage".toList) =
      some ([], "???garbage".toList) := by
  refine ⟨?_, ?_, ?_, ?_⟩
  · have h := (C5_loop_collects_and_truncates
      "• Added input 'x':\n    follows 'y'\n???garbage".toList).2.2.1
    exact h.trans (by decide)
  · have h := (C5_loop_collects_and_truncates "???garbage".toList).2.1 100 (by decide)
    exact h.trans (by decide)
  · exact (C5_loop_collects_and_truncates
      "• Added input 'x':\n    follows 'y'\n???garbage".toList).1
      "???garbage".toList (Entry.Added (AddInfo.Follows "y".toList)) (by decide)
  · exact (C5_loop_collects_and_truncates "???garbage".toList).2.2.2 (by decide)

/-- C9: `parse_header` succeeds exactly when the input starts with the literal
title line and one further line terminator (a blank line), returning the
remainder after the blank line; every other prefix fails. -/
theorem C9_header_shape (input rest : Str) :
    parse_header input = some (rest, ()) ↔
      ∃ e1 e2 : Str, (e1 = ['\n'] ∨ e1 = ['\r', '\n']) ∧
        (e2 = ['\n'] ∨ e2 = ['\r', '\n']) ∧
        input = "Flake lock file updates:".toList ++ e1 ++ e2 ++ rest := by
  constructor
  · intro h
    unfold parse_header at h
    rcases htag : tagP "Flake lock file updates:".toList input with - | i1
    · simp only [htag] at h
      exact Option.noConfusion h
    · simp only [htag] at h
      rcases hle1 : lineEnding i1 with - | i2
      · simp only [hle1] at h
        exact Option.noConfusion h
      · simp only [hle1] at h
        rcases hle2 : lineEnding i2 with - | i3
        · simp only [hle2] at h
          exact Option.noConfusion h
        · simp only [hle2] at h
          simp only [Option.some.injEq, Prod.mk.injEq, and_true] at h
          have h1 := tagP_eq_some htag
          rcases lineEnding_eq_some hle1 with h2 | h2 <;>
            rcases lineEnding_eq_some hle2 with h3 | h3
          · exact ⟨['\n'], ['\n'], Or.inl rfl, Or.inl rfl,
              by rw [h1, h2, h3, h]; simp⟩
          · exact ⟨['\n'], ['\r', '\n'], Or.inl rfl, Or.inr rfl,
              by rw [h1, h2, h3, h]; simp⟩
          · exact ⟨['\r', '\n'], ['\n'], Or.inr rfl, Or.inl rfl,
              by rw [h1, h2, h3, h]; simp⟩
          · exact ⟨['\r', '\n'], ['\r', '\n'], Or.inr rfl, Or.inr rfl,
              by rw [h1, h2, h3, h]; simp⟩
  · rintro ⟨e1, e2, he1, he2, rfl⟩
    unfold parse_header
    rcases he1 with rfl | rfl <;> rcases he2 with rfl | rfl <;>
      simp only [List.append_assoc, List.cons_append, List.nil_append,
                 tagP_append, lineEnding_nl, lineEnding_crnl]

/-- C9 witness: the header parses on the exact title plus blank line, leaving
the remainder. -/
theorem C9_header_shape_witness :
    parse_header "Flake lock file updates:\n\nX".toList = some (['X'], ()) :=
  (C9_header_shape "Flake lock file updates:\n\nX".toList ['X']).mpr
    ⟨['\n'], ['\n'], Or.inl rfl, Or.inl rfl, by decide⟩

/-- C8: in an Added block body the `follows '<path>'` alternative is attempted
first and, when it matches, yields a Follows entry carrying the path verbatim;
only when that alternative fails is the body parsed as a dated locator,
yielding a New entry on success. -/
theorem C8_added_follows_first (ws path rest input : Str)
    (hws : ∀ c ∈ ws, isSpaceTab c = true)
    (hq : '\'' ∉ path)
    (hfail : AddInfo.followsAlt input = none) :
    AddInfo.parse_from (ws ++ "follows '".toList ++ path ++ '\'' :: '\n' :: rest) =
      some (rest, AddInfo.Follows path) ∧
    AddInfo.parse_from input =
      (DatedFlakeRef.parse_from input).map (fun p => (p.1, AddInfo.New p.2)) := by
  constructor
  · have hst : stopsHere isSpaceTab
        ("follows '".toList ++ (path ++ '\'' :: '\n' :: rest)) :=
      Or.inr ⟨'f', "ollows '".toList ++ (path ++ '\'' :: '\n' :: rest), rfl, by decide⟩
    have hsplit9 : "follows '".toList ++ (path ++ '\'' :: '\n' :: rest) =
        "follows ".toList ++ ('\'' :: (path ++ '\'' :: '\n' :: rest)) := rfl
    have hfollows : AddInfo.followsAlt
        (ws ++ "follows '".toList ++ path ++ '\'' :: '\n' :: rest) =
        some (rest, AddInfo.Follows path) := by
      unfold AddInfo.followsAlt space0
      rw [List.append_assoc, List.append_assoc,
          dropWhile_append_all hws, dropWhile_stopsHere hst, hsplit9]
      simp only [tagP_append, tagP_single, takeUntilSeq_single hq, lineEnding_nl]
    unfold AddInfo.parse_from
    rw [hfollows]
  · unfold AddInfo.parse_from
    rw [hfail]
    cases hd : DatedFlakeRef.parse_from input with
    | none => rfl
    | some p => cases p with | mk a b => rfl

/-- C8 witness: a concrete `follows` body yields the Follows entry; a concrete
dated-locator body (on which the follows alternative fails) yields the New
entry via the dated-locator parse. -/
theorem C8_added_follows_first_witness :
    AddInfo.parse_from ("  ".toList ++ "follows '".toList ++ "a/b".toList ++
        '\'' :: '\n' :: []) = some ([], AddInfo.Follows "a/b".toList) ∧
    AddInfo.parse_from "'github:o/n/c12345678' (2024-11-13)\n".toList =
      (DatedFlakeRef.parse_from "'github:o/n/c12345678' (2024-11-13)\n".toList).map
        (fun p => (p.1, AddInfo.New p.2)) :=
  C8_added_follows_first "  ".toList "a/b".toList []
    "'github:o/n/c12345678' (2024-11-13)\n".toList
    (by decide) (by decide) (by decide)

/-- C10: the dependency name in an Added block's header line is parsed but
discarded: two Added blocks identical except for the name yield equal parse
results and equal rendered summary lines. -/
theorem C10_added_name_ignored (name1 name2 body : Str)
    (h1 : takeUntilSeq "':".toList (name1 ++ "':\n".toList ++ body) =
      some ("':\n".toList ++ body, name1))
    (h2 : takeUntilSeq "':".toList (name2 ++ "':\n".toList ++ body) =
      some ("':\n".toList ++ body, name2)) :
    parse_entry ("• Added input '".toList ++ name1 ++ "':\n".toList ++ body) =
      parse_entry ("• Added input '".toList ++ name2 ++ "':\n".toList ++ body) ∧
    Option.map (fun p => Entry.summary p.2)
        (parse_entry ("• Added input '".toList ++ name1 ++ "':\n".toList ++ body)) =
      Option.map (fun p => Entry.summary p.2)
        (parse_entry ("• Added input '".toList ++ name2 ++ "':\n".toList ++ body)) := by
  have key : ∀ nm : Str,
      takeUntilSeq "':".toList (nm ++ "':\n".toList ++ body) =
        some ("':\n".toList ++ body, nm) →
      parse_entry ("• Added input '".toList ++ nm ++ "':\n".toList ++ body) =
        (match AddInfo.parse_from body with
         | none => none
         | some (i, info) => some (i, Entry.Added info)) := by
    intro nm hnm
    have hshape : (("• Added input '".toList ++ nm) ++ "':\n".toList) ++ body =
        '•' :: ' ' :: 'A' :: ((("dded input '".toList ++ nm) ++ "':\n".toList) ++ body) :=
      rfl
    have ht : "• Updated input '".toList = '•' :: ' ' :: 'U' :: "pdated input '".toList :=
      rfl
    have hupd : parse_updated ((("• Added input '".toList ++ nm) ++ "':\n".toList) ++ body) =
        none := by
      unfold parse_updated
      rw [hshape, ht, tagP_cons_same, tagP_cons_same,
          tagP_cons_ne (show ('U' : Char) ≠ 'A' by decide)]
    have hasc : ((("• Added input '".toList ++ nm) ++ "':\n".toList) ++ body) =
        "• Added input '".toList ++ ((nm ++ "':\n".toList) ++ body) := by
      simp [List.append_assoc]
    have hcolonnl : "':\n".toList ++ body = "':".toList ++ ('\n' :: body) := rfl
    unfold parse_entry
    rw [hupd]
    show parse_added ((("• Added input '".toList ++ nm) ++ "':\n".toList) ++ body) = _
    unfold parse_added
    rw [hasc, tagP_append]
    simp only [hnm, hcolonnl, tagP_append, lineEnding_nl]
  have e1 := key name1 h1
  have e2 := key name2 h2
  rw [e1, e2]
  exact ⟨rfl, rfl⟩

/-- C10 witness: two Added blocks differing only in the name parse to the same
entry and render the same summary line. -/
theorem C10_added_name_ignored_witness :
    parse_entry ("• Added input '".toList ++ "a".toList ++ "':\n".toList ++
        "    follows 'x'\n".toList) =
      parse_entry ("• Added input '".toList ++ "b".toList ++ "':\n".toList ++
        "    follows 'x'\n".toList) ∧
    Option.map (fun p => Entry.summary p.2)
        (parse_entry ("• Added input '".toList ++ "a".toList ++ "':\n".toList ++
          "    follows 'x'\n".toList)) =
      Option.map (fun p => Entry.summary p.2)
        (parse_entry ("• Added input '".toList ++ "b".toList ++ "':\n".toList ++
          "    follows 'x'\n".toList)) :=
  C10_added_name_ignored "a".toList "b".toList "    follows 'x'\n".toList
    (by decide) (by decide)

end Flakers
